import Mathlib

/-!
Verification development for the source-structure analysis subsystem of
`fallaoi-cpp.py`: the fold-region analyzer (`MiniIDE._analyze_code_structure`),
the fold toggle (`MiniIDE._toggle_fold`) and the highlight tagger
(`MiniIDE._apply_syntax_highlight`), shallowly embedded over `List Char`
buffers (ASCII source text; Python strings are modelled as `List Char`).
-/

set_option maxRecDepth 10000

/-- Whitespace characters stripped by Python's `str.strip()` / `str.lstrip()`
for ASCII text: space, tab, newline, carriage return, vertical tab, form feed. -/
def isPyWs (c : Char) : Bool :=
  c = ' ' || c = '\t' || c = '\n' || c = '\r' || c = '\x0b' || c = '\x0c'

/-- Python `content.split('\n')`: split on newline keeping empty pieces; the
result always has one more piece than the number of newlines. -/
def splitNl : List Char → List (List Char)
  | [] => [[]]
  | c :: rest =>
    if c = '\n' then [] :: splitNl rest
    else
      match splitNl rest with
      | l :: ls => (c :: l) :: ls
      | [] => [[c]]

/-- Python `line.strip()` for ASCII text. -/
def pyStrip (l : List Char) : List Char :=
  ((l.dropWhile isPyWs).reverse.dropWhile isPyWs).reverse

/-- Python `len(line) - len(line.lstrip())`: the leading-whitespace width. -/
def pyIndent (l : List Char) : Nat :=
  l.length - (l.dropWhile isPyWs).length

/-- Python `pat in s`: substring test. -/
def hasSub (pat s : List Char) : Bool :=
  (List.range (s.length + 1)).any (fun k => pat.isPrefixOf (s.drop k))

/-- Region kinds used by `_analyze_code_structure`: the Python strings
`'class'`, `'function'` and `'block'`. -/
inductive FoldKind
  | cls
  | func
  | block
deriving DecidableEq, Repr

/-- A fold region `(type, start_line, end_line)` as appended to
`fold_regions` (lines are 1-based). -/
structure Region where
  kind : FoldKind
  startLine : Nat
  endLine : Nat
deriving DecidableEq, Repr

/-! ## Python (indentation) branch of `_analyze_code_structure` -/

/-- The `while indent_stack and indent_stack[-1][2] >= current_indent` pop
loop: pop every entry whose indent is at least `w`, appending a region when
`i > start_line`.  Stack entries are `(kind, start_line, indent)`, head = top. -/
def pyPop (i w : Nat) : List (FoldKind × Nat × Nat) → List Region →
    List (FoldKind × Nat × Nat) × List Region
  | [], acc => ([], acc)
  | e :: rest, acc =>
    if w ≤ e.2.2 then
      pyPop i w rest (if e.2.1 < i then acc ++ [⟨e.1, e.2.1, i⟩] else acc)
    else (e :: rest, acc)

/-- One iteration of `for i, line in enumerate(lines, 1)` in the Python branch. -/
def pyLine (i : Nat) (l : List Char) (stack : List (FoldKind × Nat × Nat))
    (acc : List Region) : List (FoldKind × Nat × Nat) × List Region :=
  let stripped := pyStrip l
  if ("class ".data).isPrefixOf stripped then
    ((FoldKind.cls, i, pyIndent l) :: stack, acc)
  else if ("def ".data).isPrefixOf stripped then
    ((FoldKind.func, i, pyIndent l) :: stack, acc)
  else if stripped.getLast? = some ':' ∧ ¬ stripped.head? = some '#' then
    let w := pyIndent l
    let p := pyPop i w stack acc
    ((FoldKind.block, i, w) :: p.1, p.2)
  else (stack, acc)

/-- The line loop of the Python branch followed by the end-of-input loop
`for start_type, start_line, _ in indent_stack` (which iterates the Python
list bottom-first, hence `stack.reverse` here), closing each leftover entry
at `len(lines) = n`. -/
def pyLines (n : Nat) : Nat → List (List Char) → List (FoldKind × Nat × Nat) →
    List Region → List Region
  | _, [], stack, acc => acc ++ stack.reverse.map (fun e => ⟨e.1, e.2.1, n⟩)
  | i, l :: rest, stack, acc =>
    let p := pyLine i l stack acc
    pyLines n (i + 1) rest p.1 p.2

/-- The whole Python branch of `_analyze_code_structure`. -/
def pyAnalyze (lines : List (List Char)) : List Region :=
  pyLines lines.length 1 lines [] []

/-! ## C/C++ (brace) branch of `_analyze_code_structure` -/

/-- The scanner state threaded by the C/C++ branch: the three flags
initialised before the line loop plus the opener stack and the region
accumulator (all five persist across line boundaries in the source). -/
structure CSt where
  in_comment : Bool
  in_string : Bool
  escape_next : Bool
  stack : List (FoldKind × Nat)
  regs : List Region
deriving DecidableEq, Repr

/-- Initial scanner state of the C/C++ branch. -/
def cInit : CSt := ⟨false, false, false, [], []⟩

/-- How many characters one loop iteration consumed (`j += 1`, `j += 2`) or
whether it aborted the line (`break` on a `//` line comment). -/
inductive StepKind
  | one
  | two
  | stop
deriving DecidableEq, Repr

/-- Word character of the regex class `\w` for ASCII text. -/
def isWordChar (c : Char) : Bool := c.isAlphanum || c = '_'

/-- Drop trailing regex-`\s` whitespace. -/
def dropTrailingWs (s : List Char) : List Char :=
  (s.reverse.dropWhile isPyWs).reverse

/-- Existence of a match of the regex `\w+\s*\([^)]*\)\s*$` in `s`
(as used by `re.search` on the previous line): after stripping trailing
whitespace the text must end in `)`, with a matching `(` having no `)`
in between and, going left across optional whitespace, at least one word
character before the `(`. -/
def sigMatch (s : List Char) : Bool :=
  let t := dropTrailingWs s
  if t.length = 0 then false
  else
    let k := t.length - 1
    (t.getD k ' ' = ')') &&
    (List.range k).any (fun p =>
      t.getD p ' ' = '(' &&
      ((t.drop (p + 1)).take (k - (p + 1))).all (fun c => !(c = ')')) &&
      (match (dropTrailingWs (t.take p)).getLast? with
       | some c => isWordChar c
       | none => false))

/-- The keyword list `['class', 'struct', 'enum', 'union', 'namespace']`. -/
def cKeywords : List (List Char) :=
  ["class".data, "struct".data, "enum".data, "union".data, "namespace".data]

/-- The opener test at a `{`:
`prev_text = ' '.join(lines[max(0, i-2):i-1] + [line[:j]])` (the slice holds
the single previous line, or nothing on the first line) must contain one of
the keywords, or the previous line alone must match the signature regex. -/
def cPushCond (prev : Option (List Char)) (pfx : List Char) : Bool :=
  let prevText :=
    match prev with
    | none => pfx
    | some p => p ++ (' ' :: pfx)
  (cKeywords.any (fun kw => hasSub kw prevText)) ||
    sigMatch (match prev with | none => [] | some p => p)

/-- One iteration of the `while j < len(line)` character loop of the C/C++
branch: `c` is `line[j]`, `la` is `line[j+1]` when it exists, `pfx` is
`line[:j]`, `i` the 1-based line number.  The cascade mirrors the source:
escape skip, backslash, quote, `/*` and `//` (only outside strings), `*/`
(only inside a comment), then `{` / `}` outside comments and strings. -/
def cStep (prev : Option (List Char)) (pfx : List Char) (i : Nat) (c : Char)
    (la : Option Char) (st : CSt) : CSt × StepKind :=
  if st.escape_next then ({ st with escape_next := false }, .one)
  else if c = '\\' then ({ st with escape_next := true }, .one)
  else if c = '"' ∧ st.in_comment = false then
    ({ st with in_string := !st.in_string }, .one)
  else if c = '/' ∧ la = some '*' ∧ st.in_string = false then
    ({ st with in_comment := true }, .two)
  else if c = '/' ∧ la = some '/' ∧ st.in_string = false then (st, .stop)
  else if c = '*' ∧ la = some '/' ∧ st.in_comment = true then
    ({ st with in_comment := false }, .two)
  else if st.in_comment = false ∧ st.in_string = false ∧ c = '{' then
    (if cPushCond prev pfx then
       { st with stack := (FoldKind.block, i) :: st.stack }
     else st, .one)
  else if st.in_comment = false ∧ st.in_string = false ∧ c = '}' then
    (match st.stack with
     | [] => st
     | (k, sl) :: s2 =>
       { st with
         stack := s2,
         regs := if sl < i then st.regs ++ [⟨k, sl, i⟩] else st.regs }, .one)
  else (st, .one)

/-- The character loop over one line of the C/C++ branch. -/
def cLineChars (i : Nat) (prev : Option (List Char)) :
    List Char → List Char → CSt → CSt
  | _, [], st => st
  | pfx, c :: rs, st =>
    match cStep prev pfx i c rs.head? st with
    | (st', StepKind.stop) => st'
    | (st', StepKind.one) => cLineChars i prev (pfx ++ [c]) rs st'
    | (st', StepKind.two) =>
      match rs with
      | [] => st'
      | la :: rs' => cLineChars i prev (pfx ++ [c, la]) rs' st'

/-- The line loop of the C/C++ branch, threading the scanner state (and the
previous line, used by the opener heuristic) across line boundaries. -/
def cLines : Nat → Option (List Char) → List (List Char) → CSt → CSt
  | _, _, [], st => st
  | i, prev, l :: rest, st =>
    cLines (i + 1) (some l) rest (cLineChars i prev [] l st)

/-- The whole C/C++ branch of `_analyze_code_structure` (no end-of-input
close: unmatched openers are dropped). -/
def cppAnalyze (lines : List (List Char)) : List Region :=
  (cLines 1 none lines cInit).regs

/-! ## `_analyze_code_structure` dispatch -/

/-- `MiniIDE._analyze_code_structure` as a function of the buffer content and
the file path.  `none` models the early `if not filepath: return`, which
leaves `self.fold_regions` untouched; otherwise the computed region list is
stored.  Dispatch is on the path suffix exactly as in the source
(`.py`, then the tuple `('.c', '.cpp', '.h')`); any other path stores `[]`. -/
def analyze_code_structure (content filepath : List Char) :
    Option (List Region) :=
  if filepath = [] then none
  else
    let lines := splitNl content
    if (".py".data).isSuffixOf filepath then some (pyAnalyze lines)
    else if (".c".data).isSuffixOf filepath ||
        (".cpp".data).isSuffixOf filepath ||
        (".h".data).isSuffixOf filepath then some (cppAnalyze lines)
    else some []

/-! ## `_toggle_fold` and the Tk text buffer -/

/-- The slice of Tk text-widget state `_toggle_fold` touches: the buffer
lines (1-based) and the set of start lines whose `fold_{start_line}` mark is
set. -/
structure EdBuf where
  lines : List (List Char)
  marks : List Nat
deriving DecidableEq, Repr

/-- The placeholder `" [...] "` inserted at collapse. -/
def placeholderText : List Char := " [...] ".data

/-- Tk `insert(f"{n}.0", txt)` for single-line `txt`: prepend to line `n`. -/
def insertAtLineStart (txt : List Char) : Nat → List (List Char) →
    List (List Char)
  | _, [] => []
  | n, l :: rest =>
    if n ≤ 1 then (txt ++ l) :: rest
    else l :: insertAtLineStart txt (n - 1) rest

/-- Tk `delete(f"{sl}.0+1l", f"{el}.0")`: remove the characters from the
start of line `sl+1` up to the start of line `el`, i.e. lines `sl+1` through
`el-1` entirely; a start index at or past the stop index deletes nothing. -/
def deleteLinesBetween (sl el : Nat) (ls : List (List Char)) :
    List (List Char) :=
  if el ≤ sl + 1 then ls else ls.take sl ++ ls.drop (el - 1)

/-- `MiniIDE._toggle_fold(editor, start_line, end_line)`: if the
`fold_{start_line}` mark is set, unset it and delete from `start_line.0+1l`
to `end_line.0`; otherwise set the mark and insert `" [...] "` at
`start_line.0`. -/
def toggle_fold (b : EdBuf) (sl el : Nat) : EdBuf :=
  if sl ∈ b.marks then
    { lines := deleteLinesBetween sl el b.lines, marks := b.marks.erase sl }
  else
    { lines := insertAtLineStart placeholderText sl b.lines,
      marks := sl :: b.marks }

/-! ## `_apply_syntax_highlight` -/

/-- The lexer choice of `_apply_syntax_highlight`: `.py`, then `.c`, then
the tuple `('.cpp', '.cc', '.cxx', '.h', '.hpp')`; any other path returns
before tagging anything. -/
inductive LexKind
  | python
  | clang
  | cpp
deriving DecidableEq, Repr

/-- The lexer-selection cascade of `_apply_syntax_highlight`. -/
def selectLexer (filepath : List Char) : Option LexKind :=
  if (".py".data).isSuffixOf filepath then some .python
  else if (".c".data).isSuffixOf filepath then some .clang
  else if (".cpp".data).isSuffixOf filepath ||
      (".cc".data).isSuffixOf filepath ||
      (".cxx".data).isSuffixOf filepath ||
      (".h".data).isSuffixOf filepath ||
      (".hpp".data).isSuffixOf filepath then some .cpp
  else none

/-- Tk `editor.search(pat, start, stopindex="end", regexp=False)` over the
buffer, with positions as character offsets: the least offset `k ≥ start`
where `pat` occurs in full. -/
def findSubFrom (pat s : List Char) (start : Nat) : Option Nat :=
  ((List.range (s.length + 1)).filter
    (fun k => decide (start ≤ k) && pat.isPrefixOf (s.drop k))).head?

/-- The inner `while True` search-and-tag loop of `_apply_syntax_highlight`
for one token `(ty, val)`: starting at offset `start`, repeatedly find the
next occurrence of `val`, tag `[pos, pos + len val)`, and resume at the end
of the tagged span.  `fuel` bounds the recursion; `content.length + 1` is
enough for every nonempty `val` (pygments token values are nonempty). -/
def tagOcc {α : Type} (ty : α) (val content : List Char) :
    Nat → Nat → List (α × Nat × Nat)
  | _, 0 => []
  | start, fuel + 1 =>
    match findSubFrom val content start with
    | none => []
    | some pos =>
      (ty, pos, pos + val.length) :: tagOcc ty val content (pos + val.length) fuel

/-- All style tags the code emits for one pygments token `(ty, val)`:
every occurrence of `val` in the buffer from the top, not the span the
token came from. -/
def tagsForToken {α : Type} (content : List Char) (tok : α × List Char) :
    List (α × Nat × Nat) :=
  tagOcc tok.1 tok.2 content 0 (content.length + 1)

/-- `MiniIDE._apply_syntax_highlight` as a function of the path, the buffer
content and the pygments token stream `(token_type, value)` (pygments is an
external library; the stream is a parameter whose values concatenate to the
content): no lexer means an early return with no tags, otherwise the
search-based tag loop runs for every token in order. -/
def applySyntaxHighlight {α : Type} (filepath content : List Char)
    (tokens : List (α × List Char)) : List (α × Nat × Nat) :=
  match selectLexer filepath with
  | none => []
  | some _ => (tokens.map (fun t => tagsForToken content t)).flatten

/-- Token classes used in concrete token streams (the pygments token types
relevant to the examples). -/
inductive TokClass
  | name
  | punct
  | keyword
  | strLit
  | comment
  | other
deriving DecidableEq, Repr

/-! ## Predicates used by the theorems -/

/-- Ordering by end line (nondecreasing). -/
def endLE (a b : Region) : Prop := a.endLine ≤ b.endLine

/-- The ordering the specification ascribes to the analyzer's output:
start line ascending and, among equal start lines, end line descending. -/
def specSorted (l : List Region) : Prop :=
  l.Pairwise (fun a b =>
    a.startLine < b.startLine ∨ (a.startLine = b.startLine ∧ b.endLine ≤ a.endLine))

/-- Accumulated regions are well-formed and closed no later than line `i`. -/
def goodAcc (i : Nat) (acc : List Region) : Prop :=
  ∀ r ∈ acc, r.startLine ≤ r.endLine ∧ r.endLine ≤ i

/-- Invariant of the C/C++ scanner state at line `i`: all stacked openers
were pushed at or before line `i`, and the regions emitted so far are
well-formed, closed at or before line `i`, and listed in nondecreasing
end-line order. -/
def cInv (i : Nat) (st : CSt) : Prop :=
  (∀ e ∈ st.stack, e.2 ≤ i) ∧ goodAcc i st.regs ∧ st.regs.Pairwise endLE

/-- The Python/C and C++ source extensions recognised anywhere in
`_analyze_code_structure` or `_apply_syntax_highlight`. -/
def sourceExts : List (List Char) :=
  [".py".data, ".c".data, ".cpp".data, ".h".data,
   ".cc".data, ".cxx".data, ".hpp".data]

/-! ## Helper lemmas -/

theorem pairwise_of_total {α : Type} {R : α → α → Prop} (h : ∀ a b, R a b) :
    ∀ l : List α, l.Pairwise R
  | [] => List.Pairwise.nil
  | a :: l => List.Pairwise.cons (fun b _ => h a b) (pairwise_of_total h l)

/-! ## Claim theorems -/

/-- Claim C1 (code bug): toggling a fold twice does not restore the buffer.
On buffer lines `a`, `b`, `c` with region `(1, 3)`, the first toggle inserts
the `" [...] "` marker at the start of line 1 without removing or storing
anything, and the second toggle permanently deletes line 2; the result is
not byte-identical to the original buffer. -/
theorem c1_toggle_toggle_not_identity :
    toggle_fold (toggle_fold ⟨["a".data, "b".data, "c".data], []⟩ 1 3) 1 3 ≠
      ⟨["a".data, "b".data, "c".data], []⟩ := by decide

/-- Claim C2 (code bug): the tag loop locates a token's text by substring
search over the whole buffer, so for buffer `foo(foo)` the single token
`(Name, "foo")` reported at span `[0, 3)` is tagged at both `[0, 3)` and
`[4, 7)`, and the full four-token stream produces six tag applications
rather than one per reported span. -/
theorem c2_tagger_tags_every_occurrence :
    tagsForToken (α := TokClass) "foo(foo)".data (TokClass.name, "foo".data) =
      [(TokClass.name, 0, 3), (TokClass.name, 4, 7)] ∧
    applySyntaxHighlight (α := TokClass) "a.py".data "foo(foo)".data
        [(TokClass.name, "foo".data), (TokClass.punct, "(".data),
         (TokClass.name, "foo".data), (TokClass.punct, ")".data)] =
      [(TokClass.name, 0, 3), (TokClass.name, 4, 7), (TokClass.punct, 3, 4),
       (TokClass.name, 0, 3), (TokClass.name, 4, 7), (TokClass.punct, 7, 8)] :=
  ⟨by decide, by decide⟩

/-- Claim C3, counterexample: the analyzer's output is not sorted by
`(start ascending, end descending)`.  On the snapshot below the inner
`function` region is appended before its enclosing `class` region, because
regions are appended in the order their closers are reached. -/
theorem c3_not_sorted_start_asc_end_desc :
    ¬ specSorted ((analyze_code_structure
        "class C:\n    def m(self):\n        pass\nif x:\n    pass\n".data
        "n.py".data).getD []) := by
  have h : (analyze_code_structure
      "class C:\n    def m(self):\n        pass\nif x:\n    pass\n".data
      "n.py".data).getD [] =
      [⟨FoldKind.func, 2, 4⟩, ⟨FoldKind.cls, 1, 4⟩, ⟨FoldKind.block, 4, 6⟩] := by
    decide
  rw [specSorted, h]
  intro hs
  have h2 := (List.pairwise_cons.1 hs).1 ⟨FoldKind.cls, 1, 4⟩ (by simp)
  simp only [Region.mk.injEq] at h2
  omega

/-- Claim C4, counterexample: not every region satisfies
`startLine < endLine`.  For the single-line snapshot `class C:` (no trailing
newline) the end-of-input loop closes the opener at `len(lines) = 1`,
yielding the region `(class, 1, 1)` with `startLine = endLine`. -/
theorem c4_region_start_eq_end_exists :
    ¬ ∀ r ∈ (analyze_code_structure "class C:".data "a.py".data).getD [],
        r.startLine < r.endLine := by decide

/-- Claim C5, counterexample: `InString` is carried from one line to the
next.  After the unterminated string on line 1 of
`x = "abc` / `struct X {` / `}` the scanner enters line 2 with
`in_string = true` (first conjunct), so the analyzer opens no region at the
brace (second conjunct); had line 2 been scanned from the `Normal` state, as
the claim requires, the scan of lines 2 and 3 would have produced the region
`(block, 2, 3)` (third conjunct). -/
theorem c5_in_string_carried_counterexample :
    (cLineChars 1 none [] ("x = \"abc".data) cInit).in_string = true ∧
    analyze_code_structure "x = \"abc\nstruct X \x7b\n\x7d".data "s.c".data =
      some [] ∧
    (cLines 2 (some ("x = \"abc".data))
        ["struct X \x7b".data, "\x7d".data] cInit).regs =
      [⟨FoldKind.block, 2, 3⟩] :=
  ⟨by decide, by decide, by decide⟩

/-- Claim C5, amended: the `in_string` flag is initialised outside the line
loop and never reset at a line boundary, so `InString` mode is carried from
one line to the next.  A line containing no quote and no backslash, scanned
starting in `InString` mode (and outside a block comment, with no pending
escape), changes nothing: no region opens or closes, and the scanner still
shows `InString` when the following line begins. -/
theorem c5_in_string_carried_across_lines :
    ∀ (i : Nat) (prev : Option (List Char)) (l pfx : List Char) (st : CSt),
      st.in_string = true → st.in_comment = false → st.escape_next = false →
      (∀ c ∈ l, ¬ c = '"' ∧ ¬ c = '\\') →
      cLineChars i prev pfx l st = st := by
  intro i prev l
  induction l with
  | nil => intro pfx st _ _ _ _; rfl
  | cons c rs ih =>
    intro pfx st h1 h2 h3 hl
    have hc := hl c (List.mem_cons_self c rs)
    have hstep : cStep prev pfx i c rs.head? st = (st, StepKind.one) := by
      rw [cStep]
      rw [if_neg (by simp [h3]), if_neg hc.2,
        if_neg (fun hh => hc.1 hh.1),
        if_neg (fun hh => by rw [h1] at hh; exact absurd hh.2.2 (by simp)),
        if_neg (fun hh => by rw [h1] at hh; exact absurd hh.2.2 (by simp)),
        if_neg (fun hh => by rw [h2] at hh; exact absurd hh.2.2 (by simp)),
        if_neg (fun hh => by rw [h1] at hh; exact absurd hh.2.1 (by simp)),
        if_neg (fun hh => by rw [h1] at hh; exact absurd hh.2.1 (by simp))]
    rw [cLineChars, hstep]
    exact ih (pfx ++ [c]) st h1 h2 h3 (fun c' h' => hl c' (List.mem_cons_of_mem c h'))

theorem c5_in_string_carried_across_lines_witness :
    cLineChars 2 (some ("x = \"abc".data)) [] ("struct X \x7b".data)
      ⟨false, true, false, [], []⟩ = ⟨false, true, false, [], []⟩ :=
  c5_in_string_carried_across_lines 2 (some ("x = \"abc".data))
    ("struct X \x7b".data) [] ⟨false, true, false, [], []⟩ rfl rfl rfl (by decide)

/-- Claim C6 (confirmed): a `{` scanned while the scanner is in string mode
never opens a fold region — the opener branch requires `in_string = false` —
and in particular the line `char* s = "{ not real }";` yields no regions. -/
theorem c6_brace_in_string_opens_nothing :
    (∀ (prev : Option (List Char)) (pfx : List Char) (i : Nat)
        (la : Option Char) (st : CSt),
        st.in_string = true →
        (cStep prev pfx i '{' la st).1.stack = st.stack ∧
        (cStep prev pfx i '{' la st).1.regs = st.regs) ∧
    analyze_code_structure "char* s = \"\x7b not real \x7d\";".data
      "s.c".data = some [] := by
  constructor
  · intro prev pfx i la st h
    rw [cStep]
    by_cases he : st.escape_next
    · rw [if_pos he]; exact ⟨rfl, rfl⟩
    · rw [if_neg he, if_neg (by decide),
        if_neg (fun hh => absurd hh.1 (by decide)),
        if_neg (fun hh => absurd hh.1 (by decide)),
        if_neg (fun hh => absurd hh.1 (by decide)),
        if_neg (fun hh => absurd hh.1 (by decide)),
        if_neg (fun hh => by rw [h] at hh; exact absurd hh.2.1 (by simp)),
        if_neg (fun hh => absurd hh.2.2 (by decide))]
      exact ⟨rfl, rfl⟩
  · decide

theorem c6_brace_in_string_opens_nothing_witness :
    (cStep none [] 1 '{' none ⟨false, true, false, [], []⟩).1.stack = [] ∧
    (cStep none [] 1 '{' none ⟨false, true, false, [], []⟩).1.regs = [] :=
  c6_brace_in_string_opens_nothing.1 none [] 1 none
    ⟨false, true, false, [], []⟩ rfl

/-- Claim C7, counterexample: for `void f() {` / `  int x;` / `}` the
analyzer does not return the single `Block` region `(1, 3)` the claim
demands. -/
theorem c7_same_line_signature_no_region :
    (analyze_code_structure "void f() \x7b\n  int x;\n\x7d\n".data
      "m.c".data).getD [] ≠ [⟨FoldKind.block, 1, 3⟩] := by decide

/-- Claim C7, amended: for the input `void f() {\n  int x;\n}\n` the
analyzer returns no regions at all: at the brace on line 1 the keyword check
sees only `void f() ` and the signature regex is applied to the previous
line, which does not exist, so the brace is ignored.  The heuristic fires
only when the signature sits on the line before the brace: for
`void f()\n{\n  int x;\n}\n` the analyzer returns exactly one `Block`
region spanning lines 2 to 4. -/
theorem c7_analyzer_returns_no_regions :
    analyze_code_structure "void f() \x7b\n  int x;\n\x7d\n".data
      "m.c".data = some [] ∧
    analyze_code_structure "void f()\n\x7b\n  int x;\n\x7d\n".data
      "m.c".data = some [⟨FoldKind.block, 2, 4⟩] :=
  ⟨by decide, by decide⟩

/-- Claim C8, counterexample: for `class C:\n    def m(self):\n        pass\n`
the analyzer does not return `Class (1, 3)` and `Function (2, 3)`. -/
theorem c8_regions_not_ending_line3 :
    (analyze_code_structure
      "class C:\n    def m(self):\n        pass\n".data "m.py".data).getD [] ≠
      [⟨FoldKind.cls, 1, 3⟩, ⟨FoldKind.func, 2, 3⟩] := by decide

/-- Claim C8, amended: splitting the snapshot on newlines leaves a final
empty line, so `len(lines) = 4` and the end-of-input loop closes both open
entries at line 4: the analyzer returns exactly the `Class` region `(1, 4)`
followed by the nested `Function` region `(2, 4)`, with `Class` first. -/
theorem c8_regions_end_at_line4 :
    analyze_code_structure
      "class C:\n    def m(self):\n        pass\n".data "m.py".data =
      some [⟨FoldKind.cls, 1, 4⟩, ⟨FoldKind.func, 2, 4⟩] := by decide

/-- Claim C10 (confirmed): the escape skip applies in every mode.  Whenever
`escape_next` is pending the current character is consumed with no other
effect, whatever the mode; whenever the current character is a backslash and
no escape is pending, `escape_next` is set with no other effect; and the
flag survives the line boundary: after the line `a\` the scanner carries
`escape_next = true`, so the leading quote of the following line `"x` is
skipped and the scanner does not enter string mode. -/
theorem c10_escape_applies_in_every_mode :
    (∀ (prev : Option (List Char)) (pfx : List Char) (i : Nat) (c : Char)
        (la : Option Char) (st : CSt),
        st.escape_next = true →
        cStep prev pfx i c la st = ({ st with escape_next := false }, StepKind.one)) ∧
    (∀ (prev : Option (List Char)) (pfx : List Char) (i : Nat)
        (la : Option Char) (st : CSt),
        st.escape_next = false →
        cStep prev pfx i '\\' la st = ({ st with escape_next := true }, StepKind.one)) ∧
    (cLineChars 1 none [] ("a\\".data) cInit).escape_next = true ∧
    (cLines 1 none ["a\\".data, "\"x".data] cInit).in_string = false := by
  refine ⟨?_, ?_, by decide, by decide⟩
  · intro prev pfx i c la st h
    rw [cStep, if_pos h]
  · intro prev pfx i la st h
    rw [cStep, if_neg (by simp [h]), if_pos rfl]

theorem c10_escape_applies_in_every_mode_witness :
    cStep none [] 1 'q' none ⟨false, false, true, [], []⟩ =
      ({ in_comment := false, in_string := false, escape_next := false,
         stack := [], regs := [] }, StepKind.one) :=
  c10_escape_applies_in_every_mode.1 none [] 1 'q' none
    ⟨false, false, true, [], []⟩ rfl

/-! ## Invariant machinery for the region lists (claims C3 and C4) -/

theorem pyPop_spec (i w : Nat) :
    ∀ (stack : List (FoldKind × Nat × Nat)) (acc : List Region),
      goodAcc i acc → acc.Pairwise endLE →
      goodAcc i (pyPop i w stack acc).2 ∧
      (pyPop i w stack acc).2.Pairwise endLE ∧
      ∀ e ∈ (pyPop i w stack acc).1, e ∈ stack := by
  intro stack
  induction stack with
  | nil =>
    intro acc hg hp
    rw [pyPop]
    exact ⟨hg, hp, fun e he => absurd he (List.not_mem_nil e)⟩
  | cons e rest ih =>
    intro acc hg hp
    rw [pyPop]
    by_cases hw : w ≤ e.2.2
    · rw [if_pos hw]
      have hg' : goodAcc i (if e.2.1 < i then acc ++ [⟨e.1, e.2.1, i⟩] else acc) := by
        by_cases hlt : e.2.1 < i
        · rw [if_pos hlt]
          intro r hr
          rcases List.mem_append.1 hr with h | h
          · exact hg r h
          · rw [List.mem_singleton.1 h]
            exact ⟨Nat.le_of_lt hlt, Nat.le_refl i⟩
        · rw [if_neg hlt]; exact hg
      have hp' : (if e.2.1 < i then acc ++ [⟨e.1, e.2.1, i⟩] else acc).Pairwise endLE := by
        by_cases hlt : e.2.1 < i
        · rw [if_pos hlt]
          refine List.pairwise_append.2 ⟨hp, List.pairwise_singleton _ _, ?_⟩
          intro a ha b hb
          rw [List.mem_singleton.1 hb]
          exact (hg a ha).2
        · rw [if_neg hlt]; exact hp
      obtain ⟨k1, k2, k3⟩ := ih _ hg' hp'
      exact ⟨k1, k2, fun x hx => List.mem_cons_of_mem e (k3 x hx)⟩
    · rw [if_neg hw]
      exact ⟨hg, hp, fun x hx => hx⟩

theorem pyLine_spec (i : Nat) (l : List Char)
    (stack : List (FoldKind × Nat × Nat)) (acc : List Region)
    (hs : ∀ e ∈ stack, e.2.1 < i)
    (hg : ∀ r ∈ acc, r.startLine ≤ r.endLine ∧ r.endLine < i)
    (hp : acc.Pairwise endLE) :
    (∀ e ∈ (pyLine i l stack acc).1, e.2.1 ≤ i) ∧
    goodAcc i (pyLine i l stack acc).2 ∧
    (pyLine i l stack acc).2.Pairwise endLE := by
  have hg' : goodAcc i acc := fun r hr => ⟨(hg r hr).1, Nat.le_of_lt (hg r hr).2⟩
  have hstk : ∀ e ∈ stack, e.2.1 ≤ i := fun e he => Nat.le_of_lt (hs e he)
  rw [pyLine]
  split_ifs with h1 h2 h3
  · refine ⟨?_, hg', hp⟩
    intro e he
    rcases List.mem_cons.1 he with h | h
    · rw [h]
    · exact hstk e h
  · refine ⟨?_, hg', hp⟩
    intro e he
    rcases List.mem_cons.1 he with h | h
    · rw [h]
    · exact hstk e h
  · obtain ⟨k1, k2, k3⟩ := pyPop_spec i (pyIndent l) stack acc hg' hp
    refine ⟨?_, k1, k2⟩
    intro e he
    rcases List.mem_cons.1 he with h | h
    · rw [h]
    · exact hstk e (k3 e h)
  · exact ⟨hstk, hg', hp⟩

theorem pyLines_spec (n : Nat) :
    ∀ (ls : List (List Char)) (i : Nat) (stack : List (FoldKind × Nat × Nat))
      (acc : List Region),
      i + ls.length = n + 1 →
      (∀ e ∈ stack, e.2.1 < i) →
      (∀ r ∈ acc, r.startLine ≤ r.endLine ∧ r.endLine < i) →
      acc.Pairwise endLE →
      (∀ r ∈ pyLines n i ls stack acc, r.startLine ≤ r.endLine) ∧
      (pyLines n i ls stack acc).Pairwise endLE := by
  intro ls
  induction ls with
  | nil =>
    intro i stack acc hn hs hg hp
    have hin : i = n + 1 := by simpa using hn
    subst hin
    rw [pyLines]
    constructor
    · intro r hr
      rcases List.mem_append.1 hr with h | h
      · exact (hg r h).1
      · obtain ⟨e, he, hre⟩ := List.mem_map.1 h
        rw [← hre]
        have := hs e (List.mem_reverse.1 he)
        exact Nat.le_of_lt_succ this
    · refine List.pairwise_append.2 ⟨hp, ?_, ?_⟩
      · rw [List.pairwise_map]
        exact pairwise_of_total (fun a b => Nat.le_refl n) _
      · intro a ha b hb
        obtain ⟨e, he, hre⟩ := List.mem_map.1 hb
        rw [← hre]
        exact Nat.le_of_lt_succ (hg a ha).2
  | cons l rest ih =>
    intro i stack acc hn hs hg hp
    rw [pyLines]
    obtain ⟨k1, k2, k3⟩ := pyLine_spec i l stack acc hs hg hp
    refine ih (i + 1) _ _ ?_ ?_ ?_ k3
    · simp at hn ⊢; omega
    · exact fun e he => Nat.lt_succ_of_le (k1 e he)
    · exact fun r hr => ⟨(k2 r hr).1, Nat.lt_succ_of_le (k2 r hr).2⟩

theorem pyAnalyze_spec (lines : List (List Char)) :
    (∀ r ∈ pyAnalyze lines, r.startLine ≤ r.endLine) ∧
    (pyAnalyze lines).Pairwise endLE := by
  rw [pyAnalyze]
  exact pyLines_spec lines.length lines 1 [] [] (by omega)
    (fun e he => absurd he (List.not_mem_nil e))
    (fun r hr => absurd hr (List.not_mem_nil r))
    List.Pairwise.nil

theorem cStep_inv (prev : Option (List Char)) (pfx : List Char) (i : Nat)
    (c : Char) (la : Option Char) (st : CSt) (h : cInv i st) :
    cInv i (cStep prev pfx i c la st).1 := by
  obtain ⟨h1, h2, h3⟩ := h
  rw [cStep]
  split_ifs with g1 g2 g3 g4 g5 g6 g7 g8 g9
  · exact ⟨h1, h2, h3⟩
  · exact ⟨h1, h2, h3⟩
  · exact ⟨h1, h2, h3⟩
  · exact ⟨h1, h2, h3⟩
  · exact ⟨h1, h2, h3⟩
  · exact ⟨h1, h2, h3⟩
  · refine ⟨?_, h2, h3⟩
    intro e he
    rcases List.mem_cons.1 he with hh | hh
    · rw [hh]
    · exact h1 e hh
  · exact ⟨h1, h2, h3⟩
  · rcases hstk : st.stack with _ | ⟨⟨k, sl⟩, s2⟩
    · simp only [hstk]
      exact ⟨fun e he => h1 e (hstk ▸ he), h2, h3⟩
    · simp only [hstk]
      rw [hstk] at h1
      have hsl : sl ≤ i := h1 (k, sl) (List.mem_cons_self _ _)
      refine ⟨?_, ?_, ?_⟩
      · intro e he
        exact h1 e (List.mem_cons_of_mem _ he)
      · by_cases hlt : sl < i
        · simp only [if_pos hlt]
          intro r hr
          rcases List.mem_append.1 hr with hh | hh
          · exact h2 r hh
          · rw [List.mem_singleton.1 hh]
            exact ⟨Nat.le_of_lt hlt, Nat.le_refl i⟩
        · simp only [if_neg hlt]; exact h2
      · by_cases hlt : sl < i
        · simp only [if_pos hlt]
          refine List.pairwise_append.2 ⟨h3, List.pairwise_singleton _ _, ?_⟩
          intro a ha b hb
          rw [List.mem_singleton.1 hb]
          exact (h2 a ha).2
        · simp only [if_neg hlt]; exact h3
  · exact ⟨h1, h2, h3⟩

theorem cLineChars_inv (i : Nat) (prev : Option (List Char)) :
    ∀ (rest pfx : List Char) (st : CSt),
      cInv i st → cInv i (cLineChars i prev pfx rest st) := by
  have main : ∀ (m : Nat) (rest pfx : List Char) (st : CSt),
      rest.length ≤ m → cInv i st → cInv i (cLineChars i prev pfx rest st) := by
    intro m
    induction m with
    | zero =>
      intro rest pfx st hlen h
      have hr : rest = [] := List.length_eq_zero.1 (Nat.le_zero.1 hlen)
      subst hr
      rw [cLineChars]
      exact h
    | succ m ih =>
      intro rest pfx st hlen h
      match rest with
      | [] => rw [cLineChars]; exact h
      | c :: rs =>
        have hstep := cStep_inv prev pfx i c rs.head? st h
        rw [cLineChars]
        rcases hres : cStep prev pfx i c rs.head? st with ⟨st', k⟩
        rw [hres] at hstep
        cases k with
        | stop => exact hstep
        | one =>
          exact ih rs (pfx ++ [c]) st' (by simp at hlen; omega) hstep
        | two =>
          match rs with
          | [] => exact hstep
          | la :: rs' =>
            exact ih rs' (pfx ++ [c, la]) st' (by simp at hlen; omega) hstep
  exact fun rest pfx st h => main rest.length rest pfx st (Nat.le_refl _) h

theorem cInv_mono {i j : Nat} (st : CSt) (hij : i ≤ j) (h : cInv i st) :
    cInv j st :=
  ⟨fun e he => Nat.le_trans (h.1 e he) hij,
   fun r hr => ⟨(h.2.1 r hr).1, Nat.le_trans ((h.2.1 r hr)).2 hij⟩,
   h.2.2⟩

theorem cLines_inv :
    ∀ (ls : List (List Char)) (i : Nat) (prev : Option (List Char)) (st : CSt),
      cInv i st → cInv (i + ls.length) (cLines i prev ls st) := by
  intro ls
  induction ls with
  | nil => intro i prev st h; rw [cLines]; simpa using h
  | cons l rest ih =>
    intro i prev st h
    rw [cLines]
    have h1 := cLineChars_inv i prev l [] st h
    have h2 := cInv_mono _ (Nat.le_succ i) h1
    have h3 := ih (i + 1) (some l) _ h2
    have : i + 1 + rest.length = i + (l :: rest).length := by simp; omega
    rw [← this]
    exact h3

theorem cppAnalyze_spec (lines : List (List Char)) :
    (∀ r ∈ cppAnalyze lines, r.startLine ≤ r.endLine) ∧
    (cppAnalyze lines).Pairwise endLE := by
  have h := cLines_inv lines 1 none cInit
    ⟨fun e he => absurd he (List.not_mem_nil e),
     fun r hr => absurd hr (List.not_mem_nil r), List.Pairwise.nil⟩
  rw [cppAnalyze]
  exact ⟨fun r hr => (h.2.1 r hr).1, h.2.2⟩

theorem analyze_good (content filepath : List Char) :
    (∀ r ∈ (analyze_code_structure content filepath).getD [],
        r.startLine ≤ r.endLine) ∧
    ((analyze_code_structure content filepath).getD []).Pairwise endLE := by
  rw [analyze_code_structure]
  split_ifs with h1 h2 h3
  · exact ⟨fun r hr => absurd hr (List.not_mem_nil r), List.Pairwise.nil⟩
  · exact pyAnalyze_spec _
  · exact cppAnalyze_spec _
  · exact ⟨fun r hr => absurd hr (List.not_mem_nil r), List.Pairwise.nil⟩

/-- Claim C3, amended: the analyzer's region list is not sorted by
`(start ascending, end descending)`; regions are appended in the order their
closing lines are reached, so a child closed at the same line as its parent
precedes it.  What does hold for every snapshot, in both grammars, is that
the list is sorted by end line ascending (nondecreasing): mid-scan closers
are emitted at nondecreasing line numbers, and the Python end-of-input loop
closes everything at the last line index. -/
theorem c3_regions_sorted_by_end_ascending :
    ∀ content filepath : List Char,
      ((analyze_code_structure content filepath).getD []).Pairwise endLE :=
  fun content filepath => (analyze_good content filepath).2

/-- Claim C4, amended: every region produced by the analyzer satisfies
`startLine ≤ endLine`; the strict inequality of the claim fails only for
the Python end-of-input loop, which closes an opener on the last line at
that same line (see the counterexample), because unlike the mid-scan pop it
performs no `i > start_line` check. -/
theorem c4_regions_start_le_end :
    ∀ (content filepath : List Char) (r : Region),
      r ∈ (analyze_code_structure content filepath).getD [] →
      r.startLine ≤ r.endLine :=
  fun content filepath r hr => (analyze_good content filepath).1 r hr

theorem c4_regions_start_le_end_witness :
    (⟨FoldKind.func, 1, 3⟩ : Region) ∈
      (analyze_code_structure "def foo():\n    pass\n".data "m.py".data).getD [] ∧
    (⟨FoldKind.func, 1, 3⟩ : Region).startLine ≤
      (⟨FoldKind.func, 1, 3⟩ : Region).endLine :=
  ⟨by decide, c4_regions_start_le_end "def foo():\n    pass\n".data "m.py".data
    ⟨FoldKind.func, 1, 3⟩ (by decide)⟩

/-- Claim C9 (confirmed): for a file path with none of the recognised
Python/C/C++ extensions (and a declared type at all, i.e. a nonempty path),
the analyzer stores an empty region list and the highlighter returns before
emitting any style tag — a no-op in both components, not an error. -/
theorem c9_unsupported_type_noop :
    ∀ (content filepath : List Char) (tokens : List (TokClass × List Char)),
      ¬ filepath = [] →
      (∀ e ∈ sourceExts, List.isSuffixOf e filepath = false) →
      analyze_code_structure content filepath = some [] ∧
      applySyntaxHighlight filepath content tokens = [] := by
  intro content fp toks hne hext
  have h1 := hext (".py".data) (by simp [sourceExts])
  have h2 := hext (".c".data) (by simp [sourceExts])
  have h3 := hext (".cpp".data) (by simp [sourceExts])
  have h4 := hext (".h".data) (by simp [sourceExts])
  have h5 := hext (".cc".data) (by simp [sourceExts])
  have h6 := hext (".cxx".data) (by simp [sourceExts])
  have h7 := hext (".hpp".data) (by simp [sourceExts])
  constructor
  · rw [analyze_code_structure, if_neg hne]
    simp [h1, h2, h3, h4]
  · rw [applySyntaxHighlight, selectLexer]
    simp [h1, h2, h3, h4, h5, h6, h7]

theorem c9_unsupported_type_noop_witness :
    analyze_code_structure "x".data "notes.txt".data = some [] ∧
    applySyntaxHighlight "notes.txt".data "x".data
      ([] : List (TokClass × List Char)) = [] :=
  c9_unsupported_type_noop "x".data "notes.txt".data [] (by decide) (by decide)
